import Mathlib

/-
Verification of the committable_queue repository.

Three components are embedded:
  * the bounded commit queue (package committablequeue): a single list with a
    commit cursor separating committed (front) from uncommitted (tail) nodes;
  * the commit orchestrator (internal/core/commit_orchestrator.go): the
    two-phase prepare / publish-or-abort protocol, embedded as a pure function
    that returns the trace of callback invocations;
  * the segmented queue (package queue): two doubly-linked deques, with the
    splice performed by Commit modelled at the pointer level over an explicit
    heap of nodes.
-/

namespace CommittableQueue

/-- Overflow policies of the bounded queue (OverflowPolicy in the source). -/
inductive OverflowPolicy where
  | overflowError
  | overflowDropOldest
  | overflowDropNewest
deriving DecidableEq, Repr

/-- Outcome of Queue.Push: the Go signature is (dropped bool, err error) where
the only error is ErrQueueFull. -/
inductive PushResult where
  | ok (dropped : Bool)
  | queueFull
deriving DecidableEq, Repr

/-- State of the bounded Queue[T]. The doubly-linked node list is embedded as
the list of values from head to tail; the commit cursor is embedded as the
index (from the head) of the node it points to, none when the Go pointer is
nil. The size field is kept explicit, exactly as in the source. -/
structure Queue (T : Type) where
  items : List T
  commitIdx : Option Nat
  uncommitted : Nat
  size : Nat
  maxLength : Int
  overflowPolicy : OverflowPolicy
deriving Repr

namespace Queue

/-- NewQueue from the source: empty queue with the given bound and policy. -/
def NewQueue (T : Type) (maxLength : Int) (policy : OverflowPolicy) : Queue T :=
  ⟨[], none, 0, 0, maxLength, policy⟩

/-- Helper embedding of Go unlinkNode(n, uncommitted): j is the index of the
node being removed. The cursor pointer q.commit survives the unlink unchanged
unless reassigned, so its index shifts down by one when a node in front of it
is removed. The call sites never remove the cursor node itself with the flag
false, so the i = j case of the shift is unreachable there. -/
def unlinkNode {T : Type} (q : Queue T) (j : Nat) (uncFlag : Bool) : Queue T :=
  let items2 := q.items.eraseIdx j
  let cIdx1 : Option Nat :=
    if uncFlag ∧ q.commitIdx = some j then
      -- Go: q.commit = n.next; after the erase the successor sits at index j
      if j + 1 < q.items.length then some j else none
    else
      q.commitIdx.map (fun i => if j < i then i - 1 else i)
  let unc1 := if uncFlag then (if 0 < q.uncommitted then q.uncommitted - 1 else q.uncommitted)
              else q.uncommitted
  let cIdx2 := if uncFlag ∧ unc1 = 0 then none else cIdx1
  let size2 := q.size - 1
  if size2 = 0 then
    { q with items := items2, commitIdx := none, uncommitted := 0, size := 0 }
  else
    { q with items := items2, commitIdx := cIdx2, uncommitted := unc1, size := size2 }

/-- Embedding of Go appendNode: link a node at the tail; when nothing was
uncommitted the cursor is set to the new node. -/
def appendNode {T : Type} (q : Queue T) (v : T) : Queue T :=
  let cIdx := if q.uncommitted = 0 then some q.items.length else q.commitIdx
  { q with items := q.items ++ [v], commitIdx := cIdx,
           uncommitted := q.uncommitted + 1, size := q.size + 1 }

/-- Embedding of Go dropOldest: unlink the head; the cursor-maintenance flag is
set exactly when the cursor points at the head. -/
def dropOldest {T : Type} (q : Queue T) : Queue T × Bool :=
  match q.items with
  | [] => (q, false)
  | _ :: _ =>
    if q.commitIdx = some 0 then (unlinkNode q 0 true, true)
    else (unlinkNode q 0 false, true)

/-- Embedding of Go Push: overflow handling at push time, then append. -/
def Push {T : Type} (q : Queue T) (v : T) : Queue T × PushResult :=
  if 0 < q.maxLength ∧ q.maxLength ≤ (q.size : Int) then
    match q.overflowPolicy with
    | .overflowDropOldest =>
        let r := dropOldest q
        (appendNode r.1 v, .ok r.2)
    | .overflowDropNewest => (q, .ok true)
    | .overflowError => (q, .queueFull)
  else
    (appendNode q v, .ok false)

/-- Embedding of Go Commit: clears the cursor and returns the number moved. -/
def Commit {T : Type} (q : Queue T) : Queue T × Nat :=
  let moved := q.uncommitted
  if moved = 0 then (q, 0)
  else ({ q with commitIdx := none, uncommitted := 0 }, moved)

/-- Embedding of Go PopFront: remove the oldest committed element. -/
def PopFront {T : Type} (q : Queue T) : Queue T × Option T :=
  if q.size = 0 ∨ q.size = q.uncommitted then (q, none)
  else
    match q.items with
    | [] => (q, none)      -- a nil head is unreachable: size counts the nodes
    | v :: _ => (unlinkNode q 0 false, some v)

/-- Embedding of Go PopBack: remove the newest committed element, which is the
tail when nothing is uncommitted and the cursor's predecessor otherwise. -/
def PopBack {T : Type} (q : Queue T) : Queue T × Option T :=
  if q.size = 0 ∨ q.size = q.uncommitted then (q, none)
  else if q.uncommitted = 0 then
    match q.items.length with
    | 0 => (q, none)       -- a nil tail is unreachable: size counts the nodes
    | n + 1 => (unlinkNode q n false, q.items.get? n)
  else
    match q.commitIdx with
    | some i =>
        if i = 0 then (q, none)   -- Go: node == nil after node = q.commit.prev
        else (unlinkNode q (i - 1) false, q.items.get? (i - 1))
    | none => (q, none)    -- unreachable: uncommitted > 0 keeps the cursor set

/-- Embedding of Go SnapshotCommitted: copy values from the head up to (not
including) the cursor node. -/
def SnapshotCommitted {T : Type} (q : Queue T) : List T :=
  if (q.size : Int) - (q.uncommitted : Int) ≤ 0 then []
  else
    match q.commitIdx with
    | some i => q.items.take i
    | none => q.items

/-- Structural invariant of the bounded queue: the size field counts the
nodes, the uncommitted count never exceeds it, and the commit cursor is nil
exactly when nothing is uncommitted and otherwise points at the oldest
uncommitted node (index size - uncommitted from the head), so the committed
elements are exactly the first size - uncommitted elements. -/
def Inv {T : Type} (q : Queue T) : Prop :=
  q.size = q.items.length ∧
  q.uncommitted ≤ q.size ∧
  q.commitIdx = (if q.uncommitted = 0 then none
                 else some (q.size - q.uncommitted))

instance {T : Type} (q : Queue T) : Decidable (Inv q) := by
  unfold Inv; infer_instance

lemma inv_unlinkNode_false {T : Type} (q : Queue T) (j : Nat) (h : Inv q)
    (hj : j < q.items.length)
    (hcur : q.uncommitted = 0 ∨ (0 < q.uncommitted ∧ j < q.size - q.uncommitted)) :
    Inv (unlinkNode q j false) := by
  obtain ⟨h1, h2, h3⟩ := h
  have hlen : (q.items.eraseIdx j).length = q.items.length - 1 := by
    rw [List.length_eraseIdx]; simp [hj]
  unfold unlinkNode Inv
  simp only [Bool.false_eq_true, false_and, if_false, ite_false]
  split
  · rename_i hz
    dsimp only
    exact ⟨by omega, by omega, by simp⟩
  · rename_i hz
    dsimp only
    refine ⟨?_, ?_, ?_⟩
    · omega
    · rcases hcur with h0 | ⟨hpos, hlt⟩
      · omega
      · omega
    · rcases hcur with h0 | ⟨hpos, hlt⟩
      · simp [h3, h0]
      · have hu : ¬ q.uncommitted = 0 := by omega
        rw [h3, if_neg hu]
        simp only [Option.map_some', if_neg hu, if_pos hlt, Option.some.injEq]
        omega

lemma inv_unlinkNode_front_true {T : Type} (q : Queue T) (h : Inv q)
    (h0 : q.commitIdx = some 0) : Inv (unlinkNode q 0 true) := by
  obtain ⟨h1, h2, h3⟩ := h
  have hune : ¬ q.uncommitted = 0 := by
    intro hu; rw [hu] at h3; simp [h3] at h0
  have hidx : q.size - q.uncommitted = 0 := by
    rw [h3, if_neg hune] at h0; simpa using h0
  have hsz : q.size = q.uncommitted := by omega
  have hpos : 0 < q.items.length := by
    omega
  have hlen : (q.items.eraseIdx 0).length = q.items.length - 1 := by
    rw [List.length_eraseIdx]; simp [hpos]
  unfold unlinkNode Inv
  simp only [h0, and_true, if_pos rfl, if_true, true_and,
    if_pos (show 0 < q.uncommitted by omega)]
  split
  · rename_i hz
    dsimp only
    exact ⟨by omega, by omega, by simp⟩
  · rename_i hz
    have hunc2 : 1 < q.uncommitted := by omega
    dsimp only
    refine ⟨by omega, by omega, ?_⟩
    simp only [if_neg (show ¬ q.uncommitted - 1 = 0 by omega),
      if_pos (show 0 + 1 < q.items.length by omega), Option.some.injEq]
    omega

lemma inv_appendNode {T : Type} (q : Queue T) (v : T) (h : Inv q) :
    Inv (appendNode q v) := by
  obtain ⟨h1, h2, h3⟩ := h
  unfold appendNode Inv
  dsimp only
  refine ⟨?_, ?_, ?_⟩
  · simp [h1]
  · omega
  · by_cases hu : q.uncommitted = 0
    · simp [hu, h1]
    · simp only [if_neg hu, if_neg (show ¬ q.uncommitted + 1 = 0 by omega)]
      rw [h3, if_neg hu]
      simp only [Option.some.injEq]
      omega

lemma inv_dropOldest {T : Type} (q : Queue T) (h : Inv q) :
    Inv (dropOldest q).1 := by
  unfold dropOldest
  split
  · exact h
  · rename_i v rest heq
    have hlen : 0 < q.items.length := by rw [heq]; simp
    by_cases h0 : q.commitIdx = some 0
    · simp only [if_pos h0]
      exact inv_unlinkNode_front_true q h h0
    · simp only [if_neg h0]
      refine inv_unlinkNode_false q 0 h hlen ?_
      obtain ⟨h1, h2, h3⟩ := h
      by_cases hu : q.uncommitted = 0
      · exact Or.inl hu
      · refine Or.inr ⟨by omega, ?_⟩
        rw [h3, if_neg hu] at h0
        have : q.size - q.uncommitted ≠ 0 := fun hc => h0 (by rw [hc])
        omega

lemma inv_Push {T : Type} (q : Queue T) (v : T) (h : Inv q) :
    Inv (Push q v).1 := by
  unfold Push
  split
  · match hp : q.overflowPolicy with
    | .overflowDropOldest =>
        exact inv_appendNode _ v (inv_dropOldest q h)
    | .overflowDropNewest => exact h
    | .overflowError => exact h
  · exact inv_appendNode q v h

lemma inv_Commit {T : Type} (q : Queue T) (h : Inv q) :
    Inv (Commit q).1 := by
  obtain ⟨h1, h2, h3⟩ := h
  unfold Commit
  dsimp only
  split
  · exact ⟨h1, h2, h3⟩
  · exact ⟨h1, Nat.zero_le _, rfl⟩

lemma inv_PopFront {T : Type} (q : Queue T) (h : Inv q) :
    Inv (PopFront q).1 := by
  unfold PopFront
  split
  · exact h
  · rename_i hguard
    split
    · exact h
    · rename_i v rest heq
      have hlen : 0 < q.items.length := by rw [heq]; simp
      refine inv_unlinkNode_false q 0 h hlen ?_
      obtain ⟨h1, h2, h3⟩ := h
      by_cases hu : q.uncommitted = 0
      · exact Or.inl hu
      · exact Or.inr ⟨by omega, by omega⟩

lemma inv_PopBack {T : Type} (q : Queue T) (h : Inv q) :
    Inv (PopBack q).1 := by
  unfold PopBack
  split
  · exact h
  · rename_i hguard
    have hsz : q.size ≠ 0 ∧ q.size ≠ q.uncommitted := by
      constructor <;> intro hc <;> exact hguard (by simp [hc])
    split
    · rename_i hu0
      split
      · exact h
      · rename_i n heq
        have hlen : n < q.items.length := by omega
        exact inv_unlinkNode_false q n h hlen (Or.inl hu0)
    · rename_i hu0
      obtain ⟨h1, h2, h3⟩ := h
      split
      · rename_i i hi
        split
        · exact ⟨h1, h2, h3⟩
        · rename_i hi0
          have hival : i = q.size - q.uncommitted := by
            rw [h3, if_neg hu0] at hi; simpa using hi.symm
          refine inv_unlinkNode_false q (i - 1) ⟨h1, h2, h3⟩ (by omega) ?_
          exact Or.inr ⟨by omega, by omega⟩
      · exact ⟨h1, h2, h3⟩

lemma items_unlinkNode {T : Type} (q : Queue T) (j : Nat) (f : Bool) :
    (unlinkNode q j f).items = q.items.eraseIdx j := by
  unfold unlinkNode
  dsimp only
  split <;> rfl

/-- Scenario S5 drop-oldest state: capacity 3, push 0,1,2,3, then commit. -/
def s5DropOldest : Queue Nat :=
  (Commit (Push (Push (Push (Push (NewQueue Nat 3 .overflowDropOldest) 0).1 1).1 2).1 3).1).1

/-- Scenario S5 drop-newest prefix at a given capacity: push 1; commit;
push 2; commit. -/
def s5DropNewestPrefix (cap : Int) : Queue Nat :=
  (Commit (Push (Commit (Push (NewQueue Nat cap .overflowDropNewest) 1).1).1 2).1).1

end Queue

/-- C7 counterexample: with capacity 3 and drop_newest, the sequence push 1;
commit; push 2; commit; push 3 does NOT report the final push as dropped (the
queue holds only 2 elements, so no overflow occurs); the subsequent commit
moves 1 element and the committed view is [1, 2, 3], contradicting the claimed
dropped push, 0 moved and view [1, 2]. -/
theorem bounded_overflow_dropNewest_cap3_counterexample :
    (Queue.Push (Queue.s5DropNewestPrefix 3) 3).2 = PushResult.ok false ∧
    (Queue.Commit (Queue.Push (Queue.s5DropNewestPrefix 3) 3).1).2 = 1 ∧
    Queue.SnapshotCommitted
      (Queue.Commit (Queue.Push (Queue.s5DropNewestPrefix 3) 3).1).1 = [1, 2, 3] := by
  decide

/-- C7 (amended): for a bounded queue with capacity 3 and drop_oldest, pushing
0,1,2,3 and then committing yields committed view [1,2,3]; for a bounded queue
with capacity 2 (not 3) and drop_newest, the sequence push 1; commit; push 2;
commit; push 3 makes the final push report dropped, the subsequent commit move
0 elements, and the committed view equal [1,2]. -/
theorem bounded_overflow_scenarios :
    Queue.SnapshotCommitted Queue.s5DropOldest = [1, 2, 3] ∧
    (Queue.Push (Queue.s5DropNewestPrefix 2) 3).2 = PushResult.ok true ∧
    (Queue.Commit (Queue.Push (Queue.s5DropNewestPrefix 2) 3).1).2 = 0 ∧
    Queue.SnapshotCommitted
      (Queue.Commit (Queue.Push (Queue.s5DropNewestPrefix 2) 3).1).1 = [1, 2] := by
  decide

/-- C8: pops stay in the committed region. When no committed element exists
(size = uncommitted, which covers the empty queue) PopFront and PopBack report
absent; when a committed element exists, PopBack returns the newest committed
element, at index size - uncommitted - 1, skipping the uncommitted tail, and
removes exactly that element. -/
theorem pop_committed_region {T : Type} (q : Queue T) (h : Queue.Inv q) :
    (q.size = q.uncommitted →
      (Queue.PopFront q).2 = none ∧ (Queue.PopBack q).2 = none) ∧
    (q.uncommitted < q.size →
      (Queue.PopBack q).2 = q.items.get? (q.size - q.uncommitted - 1) ∧
      (Queue.PopBack q).1.items = q.items.eraseIdx (q.size - q.uncommitted - 1)) := by
  obtain ⟨h1, h2, h3⟩ := h
  constructor
  · intro hsz
    constructor
    · unfold Queue.PopFront
      rw [if_pos (Or.inr hsz)]
    · unfold Queue.PopBack
      rw [if_pos (Or.inr hsz)]
  · intro hlt
    have hg : ¬ (q.size = 0 ∨ q.size = q.uncommitted) := by omega
    unfold Queue.PopBack
    rw [if_neg hg]
    by_cases hu0 : q.uncommitted = 0
    · rw [if_pos hu0]
      have hn : q.items.length = (q.size - 1) + 1 := by omega
      rw [hn]
      have he : q.size - 1 = q.size - q.uncommitted - 1 := by omega
      rw [Queue.items_unlinkNode, he]
      exact ⟨rfl, rfl⟩
    · rw [if_neg hu0, h3, if_neg hu0]
      have hi0 : ¬ q.size - q.uncommitted = 0 := by omega
      simp only [if_neg hi0]
      rw [Queue.items_unlinkNode]
      exact ⟨trivial, rfl⟩

/-- Witness for the C8 theorem: on the queue with nodes [1, 2], node 2 still
uncommitted (cursor at index 1), PopFront and PopBack skip nothing wrongly:
PopBack returns 1, the newest committed element. -/
theorem pop_committed_region_witness :
    (Queue.PopBack (⟨[1, 2], some 1, 1, 2, 0, .overflowError⟩ : Queue Nat)).2 = some 1 := by
  have h := pop_committed_region (⟨[1, 2], some 1, 1, 2, 0, .overflowError⟩ : Queue Nat)
    (by decide)
  have h2 := (h.2 (by decide)).1
  simpa using h2

/-- C9: a bounded queue with the error overflow policy whose size has reached
maxLength rejects a push with ErrQueueFull and is left entirely unchanged. -/
theorem push_queueFull_atomic {T : Type} (q : Queue T) (v : T)
    (hml : 0 < q.maxLength) (hpol : q.overflowPolicy = .overflowError)
    (hsz : (q.size : Int) = q.maxLength) :
    Queue.Push q v = (q, PushResult.queueFull) := by
  unfold Queue.Push
  rw [if_pos ⟨hml, le_of_eq hsz.symm⟩]
  rw [hpol]

/-- Witness for the C9 theorem: pushing into the full capacity-2 queue
holding [1, 2] returns queueFull and changes nothing. -/
theorem push_queueFull_atomic_witness :
    Queue.Push (⟨[1, 2], none, 0, 2, 2, .overflowError⟩ : Queue Nat) 9 =
      ((⟨[1, 2], none, 0, 2, 2, .overflowError⟩ : Queue Nat), PushResult.queueFull) :=
  push_queueFull_atomic _ 9 (by decide) rfl (by decide)

/-- C10: every bounded-queue operation (Push under any overflow policy, Commit,
PopFront, PopBack) preserves the structural invariant: uncommitted ≤ size,
the commit cursor is nil iff uncommitted = 0, and otherwise it points at the
oldest uncommitted node, so the committed elements are exactly the first
size - uncommitted elements from the head. -/
theorem queue_ops_preserve_invariant {T : Type} (q : Queue T) (v : T)
    (h : Queue.Inv q) :
    Queue.Inv (Queue.Push q v).1 ∧ Queue.Inv (Queue.Commit q).1 ∧
    Queue.Inv (Queue.PopFront q).1 ∧ Queue.Inv (Queue.PopBack q).1 :=
  ⟨Queue.inv_Push q v h, Queue.inv_Commit q h,
   Queue.inv_PopFront q h, Queue.inv_PopBack q h⟩

/-- Witness for the C10 theorem at a mixed committed/uncommitted state. -/
theorem queue_ops_preserve_invariant_witness :
    Queue.Inv (Queue.Push (⟨[1, 2, 3], some 2, 1, 3, 3, .overflowDropOldest⟩ : Queue Nat) 5).1 ∧
    Queue.Inv (Queue.Commit (⟨[1, 2, 3], some 2, 1, 3, 3, .overflowDropOldest⟩ : Queue Nat)).1 ∧
    Queue.Inv (Queue.PopFront (⟨[1, 2, 3], some 2, 1, 3, 3, .overflowDropOldest⟩ : Queue Nat)).1 ∧
    Queue.Inv (Queue.PopBack (⟨[1, 2, 3], some 2, 1, 3, 3, .overflowDropOldest⟩ : Queue Nat)).1 :=
  queue_ops_preserve_invariant _ 5 (by decide)

namespace Core

/-- One bank's behaviour during a single CommitAll, as the orchestrator sees
it: the error its PrepareCommit returns (none on success) and whether it
supplies publish/abort callbacks (the orchestrator substitutes a no-op for a
nil callback, so the flags do not affect the invocation trace). -/
structure BankSpec (E : Type) where
  err : Option E
  hasPublish : Bool
  hasAbort : Bool

/-- Observable events during CommitAll: invocation of bank i's PrepareCommit,
of the publish or abort callback collected at index i, and of the commit
observer with its argument. -/
inductive Event (E : Type) where
  | prepare (i : Nat)
  | publish (i : Nat)
  | abortEv (i : Nat)
  | observe (e : Option E)
deriving DecidableEq, Repr

/-- The ambient context handed to CommitAll: whether WithCommitObserver
attached an observer, and the answer ctx.Err() gives to its k-th query during
the call. CommitAll queries ctx.Err() once before each prepare and once more
after the prepare loop; a bank cancelling the context during its prepare shows
up at the next query. -/
structure Ctx (E : Type) where
  hasObserver : Bool
  errAt : Nat → Option E

/-- Result of the prepare loop: the trace of prepare invocations, the bank
indices whose callbacks were collected (registration order), the error that
stopped the loop if any, and the index of the next ctx.Err() query. -/
structure LoopResult (E : Type) where
  trace : List (Event E)
  collected : List Nat
  prepErr : Option E
  checks : Nat

/-- The prepare loop of CommitAll (commit_orchestrator.go lines 68-85):
check the context, invoke PrepareCommit, stop at the first error. -/
def prepareLoop {E : Type} (ctx : Ctx E) : List (BankSpec E) → Nat → LoopResult E
  | [], i => ⟨[], [], none, i⟩
  | b :: rest, i =>
    match ctx.errAt i with
    | some e => ⟨[], [], some e, i⟩
    | none =>
      match b.err with
      | some e => ⟨[Event.prepare i], [], some e, i⟩
      | none =>
        let r := prepareLoop ctx rest (i + 1)
        ⟨Event.prepare i :: r.trace, i :: r.collected, r.prepErr, r.checks⟩

/-- Observer notification: one observe event when an observer is attached. -/
def obsEvents {E : Type} (ctx : Ctx E) (e : Option E) : List (Event E) :=
  if ctx.hasObserver then [Event.observe e] else []

/-- Outcome of one CommitAll call: the event trace, the returned error (none
means success) and the version counter afterwards. -/
structure CommitOutcome (E : Type) where
  trace : List (Event E)
  result : Option E
  version : Nat

/-- The version counter is an atomic uint64 in the source; Add(1) wraps. -/
def U64 : Nat := 2 ^ 64

/-- Embedding of CommitAll (commit_orchestrator.go lines 49-117): empty fast
path, prepare loop, reverse-order aborts and observer on failure, post-loop
context re-check, observer then publishes in order and version bump on
success. -/
def commitAll {E : Type} (banks : List (BankSpec E)) (ctx : Ctx E)
    (version : Nat) : CommitOutcome E :=
  if banks.isEmpty then ⟨obsEvents ctx none, none, version⟩
  else
    let r := prepareLoop ctx banks 0
    match r.prepErr with
    | some e =>
        ⟨r.trace ++ r.collected.reverse.map Event.abortEv ++ obsEvents ctx (some e),
         some e, version⟩
    | none =>
      match ctx.errAt r.checks with
      | some e =>
          ⟨r.trace ++ r.collected.reverse.map Event.abortEv ++ obsEvents ctx (some e),
           some e, version⟩
      | none =>
          ⟨r.trace ++ obsEvents ctx none ++ r.collected.map Event.publish,
           none, (version + 1) % U64⟩

/-- Recognisers for event kinds, used to phrase trace properties. -/
def isAbort {E : Type} : Event E → Bool
  | Event.abortEv _ => true
  | _ => false

def isObserve {E : Type} : Event E → Bool
  | Event.observe _ => true
  | _ => false

lemma prepareLoop_all_ok {E : Type} (ctx : Ctx E) (banks : List (BankSpec E)) :
    ∀ (i : Nat), (∀ b ∈ banks, b.err = none) →
    (∀ k, k < banks.length → ctx.errAt (i + k) = none) →
    prepareLoop ctx banks i =
      ⟨(List.range' i banks.length).map Event.prepare,
       List.range' i banks.length, none, i + banks.length⟩ := by
  induction banks with
  | nil => intro i _ _; simp [prepareLoop]
  | cons b rest ih =>
      intro i hok hchk
      have hc0 : ctx.errAt i = none := by
        have := hchk 0 (by simp)
        simpa using this
      have hb : b.err = none := hok b (by simp)
      have hrest := ih (i + 1) (fun x hx => hok x (by simp [hx]))
        (fun k hk => by
          have := hchk (k + 1) (by simp; omega)
          simpa [Nat.add_assoc, Nat.add_comm 1 k] using this)
      simp only [prepareLoop, hc0, hb, List.append_eq, hrest, List.length_cons,
        List.range'_succ, List.map_cons, LoopResult.mk.injEq, true_and, and_true]
      omega

lemma prepareLoop_break {E : Type} (ctx : Ctx E) (pre : List (BankSpec E))
    (b : BankSpec E) (post : List (BankSpec E)) (e : E) :
    ∀ (i : Nat), (∀ x ∈ pre, x.err = none) →
    (∀ k, k ≤ pre.length → ctx.errAt (i + k) = none) →
    b.err = some e →
    prepareLoop ctx (pre ++ b :: post) i =
      ⟨(List.range' i (pre.length + 1)).map Event.prepare,
       List.range' i pre.length, some e, i + pre.length⟩ := by
  induction pre with
  | nil =>
      intro i _ hchk hb
      have hc0 : ctx.errAt i = none := by
        have := hchk 0 (by simp)
        simpa using this
      simp [prepareLoop, hc0, hb, List.range'_succ]
  | cons a pre ih =>
      intro i hok hchk hb
      have hc0 : ctx.errAt i = none := by
        have := hchk 0 (by simp)
        simpa using this
      have ha : a.err = none := hok a (by simp)
      have hrest := ih (i + 1) (fun x hx => hok x (by simp [hx]))
        (fun k hk => by
          have := hchk (k + 1) (by simp; omega)
          simpa [Nat.add_assoc, Nat.add_comm 1 k] using this) hb
      simp only [List.cons_append, prepareLoop, hc0, ha, List.append_eq, hrest,
        List.length_cons, List.range'_succ, List.map_cons, LoopResult.mk.injEq,
        true_and, and_true]
      omega

lemma prepareLoop_trace_prepares {E : Type} (ctx : Ctx E)
    (banks : List (BankSpec E)) :
    ∀ (i : Nat), ∀ ev ∈ (prepareLoop ctx banks i).trace, ∃ j, ev = Event.prepare j := by
  induction banks with
  | nil => intro i ev hev; simp [prepareLoop] at hev
  | cons b rest ih =>
      intro i ev hev
      unfold prepareLoop at hev
      rcases hce : ctx.errAt i with _ | e
      · rw [hce] at hev
        rcases hbe : b.err with _ | e2
        · rw [hbe] at hev
          simp only [List.mem_cons] at hev
          rcases hev with h | h
          · exact ⟨i, h⟩
          · exact ih (i + 1) ev h
        · rw [hbe] at hev
          simp at hev
          exact ⟨i, hev⟩
      · rw [hce] at hev
        simp at hev

lemma filter_map_of_false {E : Type} (p : Event E → Bool) (f : Nat → Event E)
    (l : List Nat) (h : ∀ x, p (f x) = false) : (l.map f).filter p = [] := by
  induction l with
  | nil => rfl
  | cons a l ih => simp [List.filter_cons, h, ih]

lemma filter_map_of_true {E : Type} (p : Event E → Bool) (f : Nat → Event E)
    (l : List Nat) (h : ∀ x, p (f x) = true) : (l.map f).filter p = l.map f := by
  induction l with
  | nil => rfl
  | cons a l ih => simp [List.filter_cons, h, ih]

lemma take_all_none {E : Type} (banks : List (BankSpec E)) (k : Nat)
    (hk : k < banks.length)
    (hfirst : ∀ i (hik : i < k), banks[i].err = none) :
    ∀ x ∈ banks.take k, x.err = none := by
  intro x hx
  rw [List.mem_iff_getElem] at hx
  obtain ⟨i, hi, hgi⟩ := hx
  have hik : i < k := by
    have := hi
    simp [List.length_take] at this
    omega
  have hib : i < banks.length := by omega
  have hgt : (banks.take k)[i] = banks[i] := List.getElem_take banks
  rw [hgt] at hgi
  rw [← hgi]
  exact hfirst i hik

lemma banks_split {E : Type} (banks : List (BankSpec E)) (k : Nat)
    (hk : k < banks.length) :
    banks = banks.take k ++ banks[k] :: banks.drop (k + 1) := by
  conv_lhs => rw [← List.take_append_drop k banks]
  rw [List.drop_eq_getElem_cons hk]

/-- C1: abort totality. When bank k is the first whose PrepareCommit fails
(and the context is live up to that point), the trace of CommitAll contains
exactly one abort for each of banks 0..k-1, in reverse order k-1,...,0; no
bank after k is prepared; and no publish callback runs. -/
theorem commitAll_abort_totality {E : Type} (banks : List (BankSpec E))
    (ctx : Ctx E) (v k : Nat) (e : E) (hk : k < banks.length)
    (hfirst : ∀ i (hik : i < k), banks[i].err = none)
    (hke : banks[k].err = some e)
    (hchk : ∀ i, i ≤ k → ctx.errAt i = none) :
    (commitAll banks ctx v).trace.filter isAbort
        = (List.range k).reverse.map Event.abortEv ∧
    (∀ j, k < j → Event.prepare j ∉ (commitAll banks ctx v).trace) ∧
    (∀ i, Event.publish (E := E) i ∉ (commitAll banks ctx v).trace) := by
  have hempty : banks.isEmpty = false := by
    cases banks with
    | nil => simp at hk
    | cons a l => rfl
  have hlenpre : (banks.take k).length = k := by
    simp [List.length_take]
    omega
  have hloop : prepareLoop ctx banks 0 =
      ⟨(List.range' 0 (k + 1)).map Event.prepare, List.range' 0 k, some e, k⟩ := by
    conv_lhs => rw [banks_split banks k hk]
    rw [prepareLoop_break ctx (banks.take k) (banks[k]) (banks.drop (k + 1)) e 0
      (take_all_none banks k hk hfirst)
      (fun j hj => by simpa using hchk j (by omega)) hke]
    rw [hlenpre]
    simp
  have htr : (commitAll banks ctx v).trace =
      (List.range' 0 (k + 1)).map Event.prepare ++
        (List.range' 0 k).reverse.map Event.abortEv ++ obsEvents ctx (some e) := by
    simp only [commitAll, hempty, Bool.false_eq_true, if_false, hloop]
  refine ⟨?_, ?_, ?_⟩
  · rw [htr]
    rw [List.filter_append, List.filter_append]
    rw [filter_map_of_false isAbort Event.prepare _ (fun x => rfl)]
    rw [filter_map_of_true isAbort Event.abortEv _ (fun x => rfl)]
    have hobs : (obsEvents ctx (some e)).filter (isAbort (E := E)) = [] := by
      unfold obsEvents
      cases ctx.hasObserver <;> simp [isAbort]
    rw [hobs, List.range_eq_range']
    simp
  · intro j hj hmem
    rw [htr] at hmem
    simp only [List.mem_append, List.mem_map, List.mem_reverse] at hmem
    rcases hmem with (⟨i, hi, hie⟩ | ⟨i, hi, hie⟩) | hobs
    · rw [List.mem_range'] at hi
      obtain ⟨m, hm, him⟩ := hi
      cases hie
      omega
    · cases hie
    · unfold obsEvents at hobs
      cases ctx.hasObserver <;> simp at hobs
  · intro i hmem
    rw [htr] at hmem
    simp only [List.mem_append, List.mem_map, List.mem_reverse] at hmem
    rcases hmem with (⟨m, hm, hme⟩ | ⟨m, hm, hme⟩) | hobs
    · cases hme
    · cases hme
    · unfold obsEvents at hobs
      cases ctx.hasObserver <;> simp at hobs

lemma commitAll_cases {E : Type} (banks : List (BankSpec E)) (ctx : Ctx E)
    (v : Nat) :
    (banks.isEmpty = true ∧ commitAll banks ctx v = ⟨obsEvents ctx none, none, v⟩) ∨
    (banks.isEmpty = false ∧ ∃ e, (prepareLoop ctx banks 0).prepErr = some e ∧
      commitAll banks ctx v =
        ⟨(prepareLoop ctx banks 0).trace ++
          (prepareLoop ctx banks 0).collected.reverse.map Event.abortEv ++
          obsEvents ctx (some e), some e, v⟩) ∨
    (banks.isEmpty = false ∧ (prepareLoop ctx banks 0).prepErr = none ∧
      ∃ e, ctx.errAt (prepareLoop ctx banks 0).checks = some e ∧
      commitAll banks ctx v =
        ⟨(prepareLoop ctx banks 0).trace ++
          (prepareLoop ctx banks 0).collected.reverse.map Event.abortEv ++
          obsEvents ctx (some e), some e, v⟩) ∨
    (banks.isEmpty = false ∧ (prepareLoop ctx banks 0).prepErr = none ∧
      ctx.errAt (prepareLoop ctx banks 0).checks = none ∧
      commitAll banks ctx v =
        ⟨(prepareLoop ctx banks 0).trace ++ obsEvents ctx none ++
          (prepareLoop ctx banks 0).collected.map Event.publish,
         none, (v + 1) % U64⟩) := by
  by_cases hbe : banks.isEmpty
  · exact Or.inl ⟨hbe, by simp only [commitAll, hbe, if_true]⟩
  · have hbe2 : banks.isEmpty = false := by
      cases hb : banks.isEmpty
      · rfl
      · exact absurd hb hbe
    rcases hpe : (prepareLoop ctx banks 0).prepErr with _ | e
    · rcases hce : ctx.errAt (prepareLoop ctx banks 0).checks with _ | e
      · refine Or.inr (Or.inr (Or.inr ⟨hbe2, rfl, rfl, ?_⟩))
        simp only [commitAll, hbe2, Bool.false_eq_true, if_false, hpe, hce]
      · refine Or.inr (Or.inr (Or.inl ⟨hbe2, rfl, e, rfl, ?_⟩))
        simp only [commitAll, hbe2, Bool.false_eq_true, if_false, hpe, hce]
    · refine Or.inr (Or.inl ⟨hbe2, e, rfl, ?_⟩)
      simp only [commitAll, hbe2, Bool.false_eq_true, if_false, hpe]

lemma filter_of_all_prepares {E : Type} (l : List (Event E)) (p : Event E → Bool)
    (hp : ∀ j, p (Event.prepare j) = false)
    (h : ∀ ev ∈ l, ∃ j, ev = Event.prepare j) : l.filter p = [] := by
  induction l with
  | nil => rfl
  | cons a l ih =>
      obtain ⟨j, hj⟩ := h a (by simp)
      subst hj
      simp [List.filter_cons, hp j, ih (fun ev hev => h ev (by simp [hev]))]

lemma not_mem_of_all_prepares {E : Type} (l : List (Event E))
    (h : ∀ ev ∈ l, ∃ j, ev = Event.prepare j) :
    (∀ i, Event.publish (E := E) i ∉ l) ∧ (∀ i, Event.abortEv (E := E) i ∉ l) ∧
    (∀ e, Event.observe (E := E) e ∉ l) := by
  refine ⟨?_, ?_, ?_⟩ <;> intro x hx <;> obtain ⟨j, hj⟩ := h _ hx <;> cases hj

/-- C3: observer singleton. With an observer attached, every CommitAll run
notifies the observer exactly once with exactly the returned error (nil iff
success); on success the notification precedes every publish invocation, and
on failure it comes after everything else, in particular after all aborts. -/
theorem observer_singleton {E : Type} (banks : List (BankSpec E)) (ctx : Ctx E)
    (v : Nat) (hobs : ctx.hasObserver = true) :
    (commitAll banks ctx v).trace.filter isObserve
        = [Event.observe (commitAll banks ctx v).result] ∧
    ((commitAll banks ctx v).result = none →
      ∃ pre post, (commitAll banks ctx v).trace = pre ++ Event.observe none :: post ∧
        ∀ i, Event.publish (E := E) i ∉ pre) ∧
    (∀ e, (commitAll banks ctx v).result = some e →
      ∃ pre, (commitAll banks ctx v).trace = pre ++ [Event.observe (some e)]) := by
  have hobsev : ∀ e : Option E, obsEvents ctx e = [Event.observe e] := by
    intro e; unfold obsEvents; rw [hobs]; rfl
  have hprep := prepareLoop_trace_prepares ctx banks 0
  have hfoprep : ∀ p : Event E → Bool, (∀ j, p (Event.prepare j) = false) →
      (prepareLoop ctx banks 0).trace.filter p = [] :=
    fun p hp => filter_of_all_prepares _ p hp hprep
  rcases commitAll_cases banks ctx v with ⟨hbe, hca⟩ | ⟨hbe, e, hpe, hca⟩ |
    ⟨hbe, hpe, e, hce, hca⟩ | ⟨hbe, hpe, hce, hca⟩
  · rw [hca]
    refine ⟨by simp [hobsev, List.filter_cons, isObserve], ?_, ?_⟩
    · intro _
      exact ⟨[], [], by simp [hobsev], by simp⟩
    · intro e he
      simp at he
  · rw [hca]
    refine ⟨?_, ?_, ?_⟩
    · simp only [List.filter_append, hobsev,
        hfoprep isObserve (fun j => rfl),
        filter_map_of_false isObserve Event.abortEv _ (fun x => rfl)]
      simp [List.filter_cons, isObserve]
    · intro he; simp at he
    · intro e2 he2
      simp only [CommitOutcome.mk.injEq] at he2 ⊢
      obtain he2 := Option.some.inj he2
      subst he2
      exact ⟨(prepareLoop ctx banks 0).trace ++
        (prepareLoop ctx banks 0).collected.reverse.map Event.abortEv,
        by rw [hobsev, List.append_assoc]⟩
  · rw [hca]
    refine ⟨?_, ?_, ?_⟩
    · simp only [List.filter_append, hobsev,
        hfoprep isObserve (fun j => rfl),
        filter_map_of_false isObserve Event.abortEv _ (fun x => rfl)]
      simp [List.filter_cons, isObserve]
    · intro he; simp at he
    · intro e2 he2
      obtain he2 := Option.some.inj he2
      subst he2
      exact ⟨(prepareLoop ctx banks 0).trace ++
        (prepareLoop ctx banks 0).collected.reverse.map Event.abortEv,
        by rw [hobsev, List.append_assoc]⟩
  · rw [hca]
    refine ⟨?_, ?_, ?_⟩
    · simp only [List.filter_append, hobsev,
        hfoprep isObserve (fun j => rfl),
        filter_map_of_false isObserve Event.publish _ (fun x => rfl)]
      simp [List.filter_cons, isObserve]
    · intro _
      refine ⟨(prepareLoop ctx banks 0).trace,
        (prepareLoop ctx banks 0).collected.map Event.publish, ?_, ?_⟩
      · rw [hobsev]; simp
      · exact (not_mem_of_all_prepares _ hprep).1
    · intro e2 he2
      simp at he2

lemma commitAll_result_first_error {E : Type} (banks : List (BankSpec E))
    (ctx : Ctx E) (v k : Nat) (e : E) (hk : k < banks.length)
    (hfirst : ∀ i (hik : i < k), banks[i].err = none)
    (hke : banks[k].err = some e)
    (hchk : ∀ i, i ≤ k → ctx.errAt i = none) :
    (commitAll banks ctx v).result = some e ∧
    (commitAll banks ctx v).version = v := by
  have hempty : banks.isEmpty = false := by
    cases banks with
    | nil => simp at hk
    | cons a l => rfl
  have hlenpre : (banks.take k).length = k := by
    simp [List.length_take]
    omega
  have hloop : prepareLoop ctx banks 0 =
      ⟨(List.range' 0 (k + 1)).map Event.prepare, List.range' 0 k, some e, k⟩ := by
    conv_lhs => rw [banks_split banks k hk]
    rw [prepareLoop_break ctx (banks.take k) (banks[k]) (banks.drop (k + 1)) e 0
      (take_all_none banks k hk hfirst)
      (fun j hj => by simpa using hchk j (by omega)) hke]
    rw [hlenpre]
    simp
  constructor <;>
    simp only [commitAll, hempty, Bool.false_eq_true, if_false, hloop]

/-- C4: post-prepare cancellation. When every prepare succeeds but the context
is found cancelled at the re-check after the prepare loop, CommitAll invokes
every collected abort exactly once in reverse order, runs no publish, leaves
the version unchanged and returns the token's error value unchanged; and any
prepare-phase error is likewise returned as exactly the value the bank (or
token) produced. -/
theorem post_prepare_cancellation {E : Type} (banks : List (BankSpec E))
    (ctx : Ctx E) (v : Nat) (e : E) (hne : banks ≠ [])
    (hok : ∀ b ∈ banks, b.err = none)
    (hchk : ∀ i, i < banks.length → ctx.errAt i = none)
    (hcancel : ctx.errAt banks.length = some e) :
    (commitAll banks ctx v).result = some e ∧
    (commitAll banks ctx v).version = v ∧
    (commitAll banks ctx v).trace.filter isAbort
        = (List.range banks.length).reverse.map Event.abortEv ∧
    (∀ i, Event.publish (E := E) i ∉ (commitAll banks ctx v).trace) ∧
    (∀ (banks2 : List (BankSpec E)) (ctx2 : Ctx E) (k : Nat) (e2 : E)
        (hk : k < banks2.length),
      (∀ i (hik : i < k), banks2[i].err = none) →
      banks2[k].err = some e2 →
      (∀ i, i ≤ k → ctx2.errAt i = none) →
      (commitAll banks2 ctx2 v).result = some e2) := by
  have hempty : banks.isEmpty = false := by
    cases banks with
    | nil => exact absurd rfl hne
    | cons a l => rfl
  have hloop : prepareLoop ctx banks 0 =
      ⟨(List.range' 0 banks.length).map Event.prepare,
       List.range' 0 banks.length, none, banks.length⟩ := by
    have h := prepareLoop_all_ok ctx banks 0 hok
      (fun kk hkk => by simpa using hchk kk hkk)
    simpa using h
  have hca : commitAll banks ctx v =
      ⟨(List.range' 0 banks.length).map Event.prepare ++
        (List.range' 0 banks.length).reverse.map Event.abortEv ++
        obsEvents ctx (some e), some e, v⟩ := by
    simp only [commitAll, hempty, Bool.false_eq_true, if_false, hloop, hcancel]
  refine ⟨by rw [hca], by rw [hca], ?_, ?_, ?_⟩
  · rw [hca]
    simp only [List.filter_append]
    rw [filter_map_of_false isAbort Event.prepare _ (fun x => rfl)]
    rw [filter_map_of_true isAbort Event.abortEv _ (fun x => rfl)]
    have hobs : (obsEvents ctx (some e)).filter (isAbort (E := E)) = [] := by
      unfold obsEvents
      cases ctx.hasObserver <;> simp [isAbort]
    rw [hobs, List.range_eq_range']
    simp
  · intro i hmem
    rw [hca] at hmem
    simp only [List.mem_append, List.mem_map, List.mem_reverse] at hmem
    rcases hmem with (⟨m, hm, hme⟩ | ⟨m, hm, hme⟩) | hobs
    · cases hme
    · cases hme
    · unfold obsEvents at hobs
      cases ctx.hasObserver <;> simp at hobs
  · intro banks2 ctx2 k e2 hk hfirst hke hchk2
    exact (commitAll_result_first_error banks2 ctx2 v k e2 hk hfirst hke hchk2).1

/-- C5: the empty fast path. CommitAll over zero banks returns success, does
not bump the version, and notifies the attached observer (when present) with
nil. -/
theorem empty_fast_path {E : Type} (ctx : Ctx E) (v : Nat) :
    (commitAll ([] : List (BankSpec E)) ctx v).result = none ∧
    (commitAll ([] : List (BankSpec E)) ctx v).version = v ∧
    (commitAll ([] : List (BankSpec E)) ctx v).trace =
      (if ctx.hasObserver then [Event.observe (none : Option E)] else []) :=
  ⟨rfl, rfl, rfl⟩

lemma commitAll_version_split {E : Type} (banks : List (BankSpec E))
    (ctx : Ctx E) (v : Nat) :
    (commitAll banks ctx v).version = v ∨
    ((commitAll banks ctx v).result = none ∧ banks ≠ [] ∧
      (commitAll banks ctx v).version = (v + 1) % U64) := by
  rcases commitAll_cases banks ctx v with ⟨hbe, hca⟩ | ⟨hbe, e, hpe, hca⟩ |
    ⟨hbe, hpe, e, hce, hca⟩ | ⟨hbe, hpe, hce, hca⟩
  · left; rw [hca]
  · left; rw [hca]
  · left; rw [hca]
  · right
    refine ⟨by rw [hca], ?_, by rw [hca]⟩
    intro hnil
    subst hnil
    simp at hbe

lemma commitAll_version_of_fail {E : Type} (banks : List (BankSpec E))
    (ctx : Ctx E) (v : Nat) (h : (commitAll banks ctx v).result ≠ none) :
    (commitAll banks ctx v).version = v := by
  rcases commitAll_version_split banks ctx v with h1 | ⟨h2, _, _⟩
  · exact h1
  · exact absurd h2 h

lemma commitAll_version_of_success {E : Type} (banks : List (BankSpec E))
    (ctx : Ctx E) (v : Nat) (hne : banks ≠ [])
    (h : (commitAll banks ctx v).result = none) :
    (commitAll banks ctx v).version = (v + 1) % U64 := by
  rcases commitAll_cases banks ctx v with ⟨hbe, hca⟩ | ⟨hbe, e, hpe, hca⟩ |
    ⟨hbe, hpe, e, hce, hca⟩ | ⟨hbe, hpe, hce, hca⟩
  · cases banks with
    | nil => exact absurd rfl hne
    | cons a l => simp at hbe
  · rw [hca] at h; simp at h
  · rw [hca] at h; simp at h
  · rw [hca]

lemma commitAll_version_le {E : Type} (banks : List (BankSpec E)) (ctx : Ctx E)
    (v : Nat) : (commitAll banks ctx v).version ≤ v + 1 := by
  rcases commitAll_version_split banks ctx v with h1 | ⟨_, _, h3⟩
  · omega
  · rw [h3]; exact le_trans (Nat.mod_le _ _) (le_refl _)

lemma commitAll_version_ge {E : Type} (banks : List (BankSpec E)) (ctx : Ctx E)
    (v : Nat) (hv : v + 1 < U64) : v ≤ (commitAll banks ctx v).version := by
  rcases commitAll_version_split banks ctx v with h1 | ⟨_, _, h3⟩
  · omega
  · rw [h3, Nat.mod_eq_of_lt hv]; omega

/-- The version counter after a sequence of CommitAll calls, each handed its
own bank list and context, starting from version v. -/
def versionAfter {E : Type} (calls : List (List (BankSpec E) × Ctx E))
    (v : Nat) : Nat :=
  calls.foldl (fun w c => (commitAll c.1 c.2 w).version) v

lemma versionAfter_le {E : Type} (calls : List (List (BankSpec E) × Ctx E)) :
    ∀ v, versionAfter calls v ≤ v + calls.length := by
  induction calls with
  | nil => intro v; exact Nat.le_refl v
  | cons c cs ih =>
      intro v
      have h2 := commitAll_version_le c.1 c.2 v
      have h3 := ih ((commitAll c.1 c.2 v).version)
      have : versionAfter (c :: cs) v = versionAfter cs ((commitAll c.1 c.2 v).version) := rfl
      rw [this, List.length_cons]
      omega

lemma versionAfter_mono {E : Type} (calls : List (List (BankSpec E) × Ctx E)) :
    ∀ v, v + calls.length < U64 → v ≤ versionAfter calls v := by
  induction calls with
  | nil => intro v _; exact Nat.le_refl v
  | cons c cs ih =>
      intro v hv
      rw [List.length_cons] at hv
      have h1 : v ≤ (commitAll c.1 c.2 v).version :=
        commitAll_version_ge c.1 c.2 v (by omega)
      have h2 := commitAll_version_le c.1 c.2 v
      have h3 := ih ((commitAll c.1 c.2 v).version) (by omega)
      exact le_trans h1 h3

/-- C2 counterexample: a CommitAll over zero banks returns success yet leaves
the version at 0 instead of incrementing it, so the bump does not hold in the
direction success implies increment. -/
theorem version_bump_empty_counterexample :
    (commitAll ([] : List (BankSpec Nat)) ⟨false, fun _ => none⟩ 0).result = none ∧
    (commitAll ([] : List (BankSpec Nat)) ⟨false, fun _ => none⟩ 0).version = 0 :=
  ⟨rfl, rfl⟩

/-- C2 (amended): with at least one bank registered, the version is bumped by
exactly 1 iff the call succeeds; a failed call, and the empty fast path even
on success, leave it unchanged; and starting from version 0 the version is
non-decreasing across any sequence of fewer than 2^64 CommitAll calls. -/
theorem version_bump_iff_success {E : Type} (banks : List (BankSpec E))
    (ctx : Ctx E) (v : Nat) (hv : v + 1 < U64) :
    (banks ≠ [] →
      ((commitAll banks ctx v).result = none ↔
        (commitAll banks ctx v).version = v + 1)) ∧
    ((commitAll banks ctx v).result ≠ none →
      (commitAll banks ctx v).version = v) ∧
    (banks = [] → (commitAll banks ctx v).version = v) ∧
    (∀ (calls : List (List (BankSpec E) × Ctx E)), calls.length < U64 →
      ∀ i j, i ≤ j → j ≤ calls.length →
        versionAfter (calls.take i) 0 ≤ versionAfter (calls.take j) 0) := by
  refine ⟨?_, commitAll_version_of_fail banks ctx v, ?_, ?_⟩
  · intro hne
    constructor
    · intro h
      rw [commitAll_version_of_success banks ctx v hne h]
      exact Nat.mod_eq_of_lt hv
    · intro h
      rcases hres : (commitAll banks ctx v).result with _ | e
      · rfl
      · have := commitAll_version_of_fail banks ctx v (by rw [hres]; simp)
        omega
  · intro hnil
    subst hnil
    rfl
  · intro calls hlen i j hij hj
    have hsplit : calls.take j = calls.take i ++ (calls.take j).drop i := by
      conv_lhs => rw [← List.take_append_drop i (calls.take j)]
      rw [List.take_take, min_eq_left hij]
    have hfold : versionAfter (calls.take j) 0 =
        versionAfter ((calls.take j).drop i) (versionAfter (calls.take i) 0) := by
      conv_lhs => rw [hsplit]
      exact List.foldl_append _ _ _ _
    rw [hfold]
    apply versionAfter_mono
    have ha := versionAfter_le (calls.take i) 0
    have hb : (calls.take i).length ≤ i := by
      simp [List.length_take]
    have hc : ((calls.take j).drop i).length ≤ j - i := by
      simp [List.length_drop, List.length_take]
      omega
    omega

/-- Witness for the C1 theorem: four banks, the third fails with error 7;
exactly aborts 1 then 0, in that order, appear in the trace. -/
theorem commitAll_abort_totality_witness :
    (commitAll [(⟨none, true, true⟩ : BankSpec Nat), ⟨none, true, true⟩,
        ⟨some 7, false, false⟩, ⟨none, true, true⟩]
        ⟨true, fun _ => none⟩ 0).trace.filter isAbort
      = [Event.abortEv 1, Event.abortEv 0] := by
  have h := commitAll_abort_totality
    [(⟨none, true, true⟩ : BankSpec Nat), ⟨none, true, true⟩,
      ⟨some 7, false, false⟩, ⟨none, true, true⟩]
    ⟨true, fun _ => none⟩ 0 2 7 (by decide) (by decide) (by decide)
    (fun i _ => rfl)
  rw [h.1]
  rfl

/-- Witness for the C2 theorem: one successful bank bumps version 0 to 1. -/
theorem version_bump_iff_success_witness :
    (commitAll [(⟨none, true, true⟩ : BankSpec Nat)]
        ⟨false, fun _ => none⟩ 0).version = 1 := by
  have h := version_bump_iff_success [(⟨none, true, true⟩ : BankSpec Nat)]
    ⟨false, fun _ => none⟩ 0 (by decide)
  exact (h.1 (by simp)).mp rfl

/-- Witness for the C3 theorem: a failing bank with an observer attached;
the observer fires exactly once with the bank's error. -/
theorem observer_singleton_witness :
    (commitAll [(⟨some 7, false, false⟩ : BankSpec Nat)]
        ⟨true, fun _ => none⟩ 0).trace.filter isObserve
      = [Event.observe (some 7)] := by
  have h := observer_singleton [(⟨some 7, false, false⟩ : BankSpec Nat)]
    ⟨true, fun _ => none⟩ 0 rfl
  exact h.1

/-- Witness for the C4 theorem: one successful bank, context cancelled with
error 3 at the post-loop re-check; CommitAll returns 3 and keeps version 5. -/
theorem post_prepare_cancellation_witness :
    (commitAll [(⟨none, true, true⟩ : BankSpec Nat)]
        ⟨true, fun i => if i = 0 then none else some 3⟩ 5).result = some 3 ∧
    (commitAll [(⟨none, true, true⟩ : BankSpec Nat)]
        ⟨true, fun i => if i = 0 then none else some 3⟩ 5).version = 5 := by
  have h := post_prepare_cancellation [(⟨none, true, true⟩ : BankSpec Nat)]
    ⟨true, fun i => if i = 0 then none else some 3⟩ 5 3
    (by simp) (by simp) (by decide) rfl
  exact ⟨h.1, h.2.1⟩

end Core

namespace SegQueue

/-- A doubly-linked node as in the source deque: a value plus prev and next
pointers, embedded as optional heap addresses. -/
structure Node (T : Type) where
  value : T
  prev : Option Nat
  next : Option Nat

/-- The heap of linked-list nodes: what each address holds, if anything. -/
structure Heap (T : Type) where
  mem : Nat → Option (Node T)

/-- Store a node at an address. -/
def Heap.set {T : Type} (h : Heap T) (a : Nat) (n : Node T) : Heap T :=
  ⟨fun x => if x = a then some n else h.mem x⟩

/-- The head/tail/len header of one deque (struct deque in the source). -/
structure DequePtr where
  head : Option Nat
  tail : Option Nat
  len : Nat
deriving DecidableEq, Repr

/-- The heap holds at address a a node whose prev and next pointers are
exactly p and n. -/
def nodeLinked {T : Type} (h : Heap T) (p : Option Nat) (a : Nat)
    (n : Option Nat) : Prop :=
  match h.mem a with
  | none => False
  | some nd => nd.prev = p ∧ nd.next = n

instance {T : Type} (h : Heap T) (p : Option Nat) (a : Nat) (n : Option Nat) :
    Decidable (nodeLinked h p a n) := by
  unfold nodeLinked
  cases h.mem a with
  | none => exact inferInstance
  | some nd => exact inferInstance

/-- addrs lists the addresses of a doubly-linked chain from head to tail:
node i's prev pointer is address i-1 (none for the first) and its next
pointer is address i+1 (none for the last). -/
def linked {T : Type} (h : Heap T) (addrs : List Nat) : Prop :=
  ∀ i, (hi : i < addrs.length) →
    nodeLinked h (if i = 0 then none else addrs[i - 1]?) addrs[i] (addrs[i + 1]?)

instance {T : Type} (h : Heap T) (addrs : List Nat) :
    Decidable (linked h addrs) := by
  unfold linked
  exact Nat.decidableBallLT _ _

/-- The deque header d represents the chain addrs in the heap: the nodes are
linked in order, head and tail point at the ends, len counts them, and no
node is threaded twice. -/
def wfDeque {T : Type} (h : Heap T) (d : DequePtr) (addrs : List Nat) : Prop :=
  linked h addrs ∧ d.head = addrs.head? ∧ d.tail = addrs.getLast? ∧
  d.len = addrs.length ∧ addrs.Nodup

instance {T : Type} (h : Heap T) (d : DequePtr) (addrs : List Nat) :
    Decidable (wfDeque h d addrs) := by
  unfold wfDeque
  infer_instance

/-- The front-to-back values of the chain addrs. -/
def valuesAt {T : Type} (h : Heap T) (addrs : List Nat) : List (Option T) :=
  addrs.map (fun a => (h.mem a).map Node.value)

/-- Embedding of Go deque.appendLocked (the splice): move every node of other
onto the tail of d by rewiring other.head.prev and d.tail.next, then zero
other. The unreachable pointer cases (a non-empty deque with a nil head or
tail, or a dangling address) leave the state unchanged. -/
def appendLocked {T : Type} (h : Heap T) (d other : DequePtr) :
    Heap T × DequePtr × DequePtr :=
  if other.len = 0 then (h, d, other)
  else if d.len = 0 then
    (h, ⟨other.head, other.tail, other.len⟩, ⟨none, none, 0⟩)
  else
    match other.head, d.tail with
    | some oh, some dt =>
        let h1 := match h.mem oh with
          | some nd => h.set oh ⟨nd.value, some dt, nd.next⟩
          | none => h
        let h2 := match h1.mem dt with
          | some nd => h1.set dt ⟨nd.value, nd.prev, some oh⟩
          | none => h1
        (h2, ⟨d.head, other.tail, d.len + other.len⟩, ⟨none, none, 0⟩)
    | _, _ => (h, d, other)

/-- The segmented queue: two deque headers over one heap of nodes. -/
structure SegmentedQueue (T : Type) where
  heap : Heap T
  visible : DequePtr
  pending : DequePtr

/-- Embedding of SegmentedQueue.Commit: splice the pending deque onto the
tail of the visible deque. -/
def Commit {T : Type} (sq : SegmentedQueue T) : SegmentedQueue T :=
  let r := appendLocked sq.heap sq.visible sq.pending
  ⟨r.1, r.2.1, r.2.2⟩

lemma nodeLinked_congr {T : Type} (h1 h2 : Heap T) (p : Option Nat) (a : Nat)
    (n : Option Nat) (hm : h2.mem a = h1.mem a) :
    nodeLinked h2 p a n ↔ nodeLinked h1 p a n := by
  unfold nodeLinked
  rw [hm]

lemma linked_nil {T : Type} (h : Heap T) : linked h ([] : List Nat) := by
  intro i hi
  simp at hi

/-- C6: SegmentedQueue commit round-trip. For every well-formed segmented
queue whose visible chain holds the addresses A (values V) and whose pending
chain holds the addresses B (values S), Commit rewires the pointers so that
the visible deque is the chain A ++ B, its front-to-back values are exactly
V ++ S, and the pending deque is left empty. The implementation in the
repository configures no maximum visible length, so no overflow trimming can
occur and the concatenation holds unconditionally. -/
theorem segmented_commit_roundtrip {T : Type} (sq : SegmentedQueue T)
    (A B : List Nat)
    (hv : wfDeque sq.heap sq.visible A) (hp : wfDeque sq.heap sq.pending B)
    (hdisj : ∀ a ∈ A, a ∉ B) :
    wfDeque (Commit sq).heap (Commit sq).visible (A ++ B) ∧
    wfDeque (Commit sq).heap (Commit sq).pending [] ∧
    valuesAt (Commit sq).heap (A ++ B) = valuesAt sq.heap A ++ valuesAt sq.heap B := by
  obtain ⟨hvl, hvh, hvt, hvlen, hvnd⟩ := hv
  obtain ⟨hpl, hph, hpt, hplen, hpnd⟩ := hp
  by_cases hBnil : B = []
  · subst hBnil
    have hc : Commit sq = ⟨sq.heap, sq.visible, sq.pending⟩ := by
      unfold Commit appendLocked
      rw [if_pos (by rw [hplen]; rfl)]
    rw [hc]
    refine ⟨?_, ?_, ?_⟩
    · simpa using ⟨hvl, hvh, hvt, hvlen, hvnd⟩
    · exact ⟨hpl, hph, hpt, hplen, hpnd⟩
    · simp [valuesAt]
  · by_cases hAnil : A = []
    · subst hAnil
      have hc : Commit sq =
          ⟨sq.heap, ⟨sq.pending.head, sq.pending.tail, sq.pending.len⟩, ⟨none, none, 0⟩⟩ := by
        unfold Commit appendLocked
        rw [if_neg (by rw [hplen]; simpa using hBnil), if_pos (by rw [hvlen]; rfl)]
      rw [hc]
      refine ⟨⟨hpl, hph, hpt, hplen, hpnd⟩, ?_, ?_⟩
      · exact ⟨linked_nil _, rfl, rfl, rfl, List.nodup_nil⟩
      · simp [valuesAt]
    · -- main case: both non-empty
      have hAlen : 0 < A.length := List.length_pos.mpr hAnil
      have hBlen : 0 < B.length := List.length_pos.mpr hBnil
      obtain ⟨dt, hdtA, hdt⟩ : ∃ x, x = A[A.length - 1] ∧ sq.visible.tail = some x :=
        ⟨_, rfl, by rw [hvt, List.getLast?_eq_getElem?, List.getElem?_eq_getElem (by omega)]⟩
      obtain ⟨oh, hohB, hoh⟩ : ∃ x, x = B[0] ∧ sq.pending.head = some x :=
        ⟨_, rfl, by rw [hph, List.head?_eq_getElem?, List.getElem?_eq_getElem hBlen]⟩
      -- the last node of A
      obtain ⟨nddt, hmdt, hdtprev, hdtnext⟩ :
          ∃ nd, sq.heap.mem dt = some nd ∧
            nd.prev = (if A.length - 1 = 0 then none else A[A.length - 1 - 1]?) ∧
            nd.next = none := by
        have h := hvl (A.length - 1) (by omega)
        rw [← hdtA] at h
        have hnxt : A[(A.length - 1) + 1]? = none := by
          have : A.length - 1 + 1 = A.length := by omega
          rw [this]
          exact List.getElem?_eq_none (le_refl _)
        rw [hnxt] at h
        unfold nodeLinked at h
        rcases hm : sq.heap.mem dt with _ | nd
        · rw [hm] at h; exact absurd h (by simp)
        · rw [hm] at h; exact ⟨nd, rfl, h.1, h.2⟩
      -- the first node of B
      obtain ⟨ndoh, hmoh, hohprev, hohnext⟩ :
          ∃ nd, sq.heap.mem oh = some nd ∧ nd.prev = none ∧ nd.next = B[1]? := by
        have h := hpl 0 hBlen
        rw [← hohB] at h
        simp only [if_pos rfl] at h
        unfold nodeLinked at h
        rcases hm : sq.heap.mem oh with _ | nd
        · rw [hm] at h; exact absurd h (by simp)
        · rw [hm] at h; exact ⟨nd, rfl, h.1, h.2⟩
      have hdtoh : dt ≠ oh := by
        intro he
        have hdtmem : dt ∈ A := by rw [hdtA]; exact List.getElem_mem _
        have hohmem : oh ∈ B := by rw [hohB]; exact List.getElem_mem _
        exact hdisj dt hdtmem (he ▸ hohmem)
      -- the new heap
      have hc : Commit sq =
          ⟨(sq.heap.set oh ⟨ndoh.value, some dt, ndoh.next⟩).set dt
              ⟨nddt.value, nddt.prev, some oh⟩,
            ⟨sq.visible.head, sq.pending.tail, sq.visible.len + sq.pending.len⟩,
            ⟨none, none, 0⟩⟩ := by
        unfold Commit appendLocked
        rw [if_neg (by rw [hplen]; simpa using hBnil),
            if_neg (by rw [hvlen]; simpa using hAnil)]
        rw [hoh, hdt]
        have hm1 : (sq.heap.set oh ⟨ndoh.value, some dt, ndoh.next⟩).mem dt =
            some nddt := by
          unfold Heap.set
          simp [if_neg hdtoh, hmdt]
        simp only [hmoh, hm1]
      rw [hc]
      have hmem2 : ∀ x, (((sq.heap.set oh ⟨ndoh.value, some dt, ndoh.next⟩).set dt
          ⟨nddt.value, nddt.prev, some oh⟩)).mem x =
          if x = dt then some ⟨nddt.value, nddt.prev, some oh⟩
          else if x = oh then some ⟨ndoh.value, some dt, ndoh.next⟩
          else sq.heap.mem x := fun x => rfl
      have hmemH2dt : (((sq.heap.set oh ⟨ndoh.value, some dt, ndoh.next⟩).set dt
          ⟨nddt.value, nddt.prev, some oh⟩)).mem dt =
          some ⟨nddt.value, nddt.prev, some oh⟩ := by
        rw [hmem2]; simp
      have hmemH2oh : (((sq.heap.set oh ⟨ndoh.value, some dt, ndoh.next⟩).set dt
          ⟨nddt.value, nddt.prev, some oh⟩)).mem oh =
          some ⟨ndoh.value, some dt, ndoh.next⟩ := by
        rw [hmem2]
        rw [if_neg (fun he => hdtoh he.symm)]
        simp
      have hmemH2other : ∀ x, x ≠ dt → x ≠ oh →
          (((sq.heap.set oh ⟨ndoh.value, some dt, ndoh.next⟩).set dt
            ⟨nddt.value, nddt.prev, some oh⟩)).mem x = sq.heap.mem x := by
        intro x h1 h2
        rw [hmem2, if_neg h1, if_neg h2]
      have hlinked : linked ((sq.heap.set oh ⟨ndoh.value, some dt, ndoh.next⟩).set dt
          ⟨nddt.value, nddt.prev, some oh⟩) (A ++ B) := by
        intro i hi
        rw [List.length_append] at hi
        by_cases hiA : i < A.length
        · have hgi : (A ++ B)[i] = A[i] := List.getElem_append_left hiA
          by_cases hilast : i = A.length - 1
          · subst hilast
            have hadt : (A ++ B)[A.length - 1] = dt := by rw [hgi, ← hdtA]
            rw [hadt]
            unfold nodeLinked
            rw [hmemH2dt]
            refine ⟨?_, ?_⟩
            · show nddt.prev = _
              rw [hdtprev]
              by_cases h0 : A.length - 1 = 0
              · simp [h0]
              · rw [if_neg h0, if_neg h0, List.getElem?_append,
                  if_pos (show A.length - 1 - 1 < A.length by omega)]
            · show some oh = _
              rw [show A.length - 1 + 1 = A.length by omega, List.getElem?_append,
                if_neg (show ¬ A.length < A.length by omega),
                show A.length - A.length = 0 by omega,
                List.getElem?_eq_getElem hBlen, hohB]
          · have hine : A[i] ≠ dt := by
              rw [hdtA]
              intro he
              have := (List.Nodup.getElem_inj_iff hvnd).mp he
              omega
            have hinoh : A[i] ≠ oh := by
              intro he
              refine hdisj (A[i]) (List.getElem_mem hiA) ?_
              rw [he, hohB]
              exact List.getElem_mem hBlen
            rw [hgi, nodeLinked_congr _ _ _ _ _ (hmemH2other _ hine hinoh)]
            have h := hvl i hiA
            have hprev : (if i = 0 then none else (A ++ B)[i - 1]?) =
                (if i = 0 then none else A[i - 1]?) := by
              by_cases h0 : i = 0
              · simp [h0]
              · rw [if_neg h0, if_neg h0, List.getElem?_append,
                  if_pos (show i - 1 < A.length by omega)]
            have hnext : (A ++ B)[i + 1]? = A[i + 1]? := by
              rw [List.getElem?_append, if_pos (show i + 1 < A.length by omega)]
            rw [hprev, hnext]
            exact h
        · have hj : i - A.length < B.length := by omega
          have hgi : (A ++ B)[i] = B[i - A.length] :=
            List.getElem_append_right (by omega)
          by_cases hj0 : i - A.length = 0
          · have hioh : (A ++ B)[i] = oh := by
              rw [hgi, hohB]
              congr 1
            rw [hioh]
            unfold nodeLinked
            rw [hmemH2oh]
            refine ⟨?_, ?_⟩
            · show some dt = _
              rw [if_neg (show ¬ i = 0 by omega), List.getElem?_append,
                if_pos (show i - 1 < A.length by omega),
                show i - 1 = A.length - 1 by omega,
                List.getElem?_eq_getElem (show A.length - 1 < A.length by omega),
                ← hdtA]
            · show ndoh.next = _
              rw [hohnext, List.getElem?_append,
                if_neg (show ¬ i + 1 < A.length by omega),
                show i + 1 - A.length = 1 by omega]
          · have hbneoh : B[i - A.length] ≠ oh := by
              rw [hohB]
              intro he
              have := (List.Nodup.getElem_inj_iff hpnd).mp he
              omega
            have hbnedt : B[i - A.length] ≠ dt := by
              intro he
              refine hdisj dt ?_ ?_
              · rw [hdtA]; exact List.getElem_mem (by omega)
              · rw [← he]; exact List.getElem_mem hj
            rw [hgi, nodeLinked_congr _ _ _ _ _ (hmemH2other _ hbnedt hbneoh)]
            have h := hpl (i - A.length) hj
            have hprev : (if i = 0 then none else (A ++ B)[i - 1]?) =
                (if i - A.length = 0 then none else B[i - A.length - 1]?) := by
              rw [if_neg (show ¬ i = 0 by omega), if_neg hj0, List.getElem?_append,
                if_neg (show ¬ i - 1 < A.length by omega),
                show i - 1 - A.length = i - A.length - 1 by omega]
            have hnext : (A ++ B)[i + 1]? = B[i - A.length + 1]? := by
              rw [List.getElem?_append, if_neg (show ¬ i + 1 < A.length by omega),
                show i + 1 - A.length = i - A.length + 1 by omega]
            rw [hprev, hnext]
            exact h
      refine ⟨⟨hlinked, ?_, ?_, ?_, ?_⟩, ⟨linked_nil _, rfl, rfl, rfl, List.nodup_nil⟩, ?_⟩
      · show sq.visible.head = _
        rw [hvh]
        rcases A with _ | ⟨a, as⟩
        · exact absurd rfl hAnil
        · rfl
      · show sq.pending.tail = _
        rw [hpt, List.getLast?_eq_getElem?, List.getLast?_eq_getElem?,
          List.getElem?_append, List.length_append,
          if_neg (show ¬ A.length + B.length - 1 < A.length by omega),
          show A.length + B.length - 1 - A.length = B.length - 1 by omega]
      · show sq.visible.len + sq.pending.len = _
        rw [hvlen, hplen, List.length_append]
      · exact List.Nodup.append hvnd hpnd (fun a ha hb => hdisj a ha hb)
      · show valuesAt _ (A ++ B) = _
        unfold valuesAt
        have hval : (fun a => ((((sq.heap.set oh ⟨ndoh.value, some dt, ndoh.next⟩).set dt
            ⟨nddt.value, nddt.prev, some oh⟩)).mem a).map Node.value) =
            (fun a => (sq.heap.mem a).map Node.value) := by
          funext a
          by_cases h1 : a = dt
          · subst h1
            rw [hmemH2dt, hmdt]
            rfl
          · by_cases h2 : a = oh
            · subst h2
              rw [hmemH2oh, hmoh]
              rfl
            · rw [hmemH2other a h1 h2]
        rw [List.map_append, hval]

/-- A concrete three-node segmented-queue state used as witness input:
visible chain [0, 1] holding 10, 11 and pending chain [2] holding 12. -/
def sqWitness : SegmentedQueue Nat :=
  ⟨⟨fun a => if a = 0 then some ⟨10, none, some 1⟩
      else if a = 1 then some ⟨11, some 0, none⟩
      else if a = 2 then some ⟨12, none, none⟩ else none⟩,
    ⟨some 0, some 1, 2⟩, ⟨some 2, some 2, 1⟩⟩

/-- Witness for the C6 theorem: committing the three-node state makes the
visible chain 0, 1, 2 hold the values 10, 11, 12 in order. -/
theorem segmented_commit_roundtrip_witness :
    valuesAt (Commit sqWitness).heap ([0, 1] ++ [2]) =
      [some 10, some 11, some 12] := by
  have h := segmented_commit_roundtrip sqWitness [0, 1] [2]
    (by decide) (by decide) (by decide)
  rw [h.2.2]
  rfl

end SegQueue

end CommittableQueue
